import Mathlib

/-!
Verification of the quadtree-art decomposition core (`src/quad.rs`).

Shallow embedding conventions:
* `u32`/`u64`/`usize` values are modelled as `ℕ`.  All arithmetic appearing in
  the embedded functions (`+`, `-`, `/`, `min`) stays inside bounds that a
  `u32`/`u64` holds for any region descending from an image-bounded root, so no
  wrap-around is modelled; the `as u8` truncating cast in `calc_avg_color` is
  modelled explicitly as `% 256`.
* `f64` arithmetic (`calc_color_distance` and the `color_threshold`
  comparison) is modelled over the exact reals `ℝ` with `Real.sqrt`.
* The `Rc<DynamicImage>` shared pixel buffer is modelled as an explicit `Img`
  argument threaded through every function (the buffer is immutable and shared
  by all regions of one run); likewise the `QuadConfig` that Rust clones into
  every `Quad` is passed explicitly (the embedded copy is never read by the
  driver, which always uses the config passed to `subdivide_nodes`).
* The `while let Some(q) = deque.pop_front()` loop of `subdivide_nodes` is
  modelled as a step function `dstep` on a state carrying the deque and the
  accumulated leaf vector; halting configurations (empty deque, or the
  `MAX_QUADS` break) are exactly the fixed points of `dstep`.
-/

/-- One RGBA pixel, channels as natural numbers (`u8` values `0..=255` in the
source; none of the embedded arithmetic needs the upper bound). -/
structure Pix where
  r : ℕ
  g : ℕ
  b : ℕ
  a : ℕ
deriving DecidableEq, Repr

/-- The immutable source pixel buffer: `image::DynamicImage` restricted to the
interface the core uses (`width()`, `height()`, `get_pixel(x, y)`). -/
structure Img where
  width : ℕ
  height : ℕ
  pix : ℕ → ℕ → Pix

/-- `QuadConfig` from `quad.rs`. -/
structure QuadConfig where
  max_depth : ℕ
  color_threshold : ℝ
  size_threshold : ℕ
  output_file : String

/-- `Quad` from `quad.rs`, minus the shared `image`/`config` handles (passed
explicitly, see the header comment). -/
structure Quad where
  x : ℕ
  y : ℕ
  width : ℕ
  height : ℕ
  color : Pix
  cur_depth : ℕ
deriving DecidableEq, Repr

/-- The sentinel color `Rgba([0, 0, 0, 255])`. -/
def blackPix : Pix := ⟨0, 0, 0, 255⟩

/-- `Quad::new`: fresh root region with sentinel color and depth 0. -/
def Quad.new (x y width height : ℕ) : Quad :=
  ⟨x, y, width, height, blackPix, 0⟩

/-- `(self.x + self.width).min(self.image.width())` — the clamped exclusive
upper x-bound used by both statistics loops. -/
def endX (img : Img) (q : Quad) : ℕ := min (q.x + q.width) img.width

/-- `(self.y + self.height).min(self.image.height())`. -/
def endY (img : Img) (q : Quad) : ℕ := min (q.y + q.height) img.height

/-- The number of loop iterations of the statistics double loop, i.e. the
value `pixel_count` holds after the loop (the loop increments it once per
`(x, y)` pair with `self.x ≤ x < end_x`, `self.y ≤ y < end_y`). -/
def pixelCount (img : Img) (q : Quad) : ℕ :=
  (endX img q - q.x) * (endY img q - q.y)

/-- Channel sum accumulated by the double loop of `calc_avg_color`
(`total_red` / `total_green` / `total_blue` for `f` = `Pix.r`/`Pix.g`/`Pix.b`). -/
def chanSum (img : Img) (q : Quad) (f : Pix → ℕ) : ℕ :=
  ∑ px in Finset.Ico q.x (endX img q), ∑ py in Finset.Ico q.y (endY img q), f (img.pix px py)

/-- `Quad::calc_avg_color`.  The `as u8` casts are `% 256`; the
`pixel_count == 0` branch returns the black sentinel. -/
def calc_avg_color (img : Img) (q : Quad) : Pix :=
  if pixelCount img q = 0 then ⟨0, 0, 0, 255⟩
  else
    ⟨chanSum img q Pix.r / pixelCount img q % 256,
     chanSum img q Pix.g / pixelCount img q % 256,
     chanSum img q Pix.b / pixelCount img q % 256, 255⟩

/-- The per-pixel summand of `calc_color_distance`: Euclidean RGB distance
between the region average `avg` and the pixel `p`. -/
noncomputable def pixEuclid (avg p : Pix) : ℝ :=
  Real.sqrt (((avg.r : ℝ) - (p.r : ℝ)) ^ 2 + ((avg.g : ℝ) - (p.g : ℝ)) ^ 2
    + ((avg.b : ℝ) - (p.b : ℝ)) ^ 2)

/-- `Quad::calc_color_distance`: mean Euclidean RGB distance of the region's
pixels from the region's own average color, `0.0` when `pixel_count == 0`. -/
noncomputable def calc_color_distance (img : Img) (q : Quad) : ℝ :=
  if pixelCount img q = 0 then 0
  else
    (∑ px in Finset.Ico q.x (endX img q), ∑ py in Finset.Ico q.y (endY img q),
      pixEuclid (calc_avg_color img q) (img.pix px py)) / (pixelCount img q : ℝ)

/-- `should_subdivide` from `quad.rs` (free function): depth, color-variance
and size conditions, conjoined in source order. -/
def should_subdivide (img : Img) (q : Quad) (cfg : QuadConfig) : Prop :=
  q.cur_depth < cfg.max_depth
    ∧ calc_color_distance img q > cfg.color_threshold
    ∧ q.width > cfg.size_threshold
    ∧ q.height > cfg.size_threshold

/-- `Quad::subdivide`: ceiling-division split into top-left, top-right,
bottom-left, bottom-right children, each at depth `cur_depth + 1` with the
sentinel color. -/
def Quad.subdivide (q : Quad) : List Quad :=
  [⟨q.x, q.y, (q.width + 1) / 2, (q.height + 1) / 2, blackPix, q.cur_depth + 1⟩,
   ⟨q.x + (q.width + 1) / 2, q.y, q.width - (q.width + 1) / 2, (q.height + 1) / 2,
     blackPix, q.cur_depth + 1⟩,
   ⟨q.x, q.y + (q.height + 1) / 2, (q.width + 1) / 2, q.height - (q.height + 1) / 2,
     blackPix, q.cur_depth + 1⟩,
   ⟨q.x + (q.width + 1) / 2, q.y + (q.height + 1) / 2, q.width - (q.width + 1) / 2,
     q.height - (q.height + 1) / 2, blackPix, q.cur_depth + 1⟩]

/-- Membership of a pixel coordinate in a region's rectangle. -/
def Quad.contains (q : Quad) (px py : ℕ) : Prop :=
  q.x ≤ px ∧ px < q.x + q.width ∧ q.y ≤ py ∧ py < q.y + q.height

instance (q : Quad) (px py : ℕ) : Decidable (q.contains px py) := by
  unfold Quad.contains; infer_instance

/-- `const MAX_QUADS: usize = 100_000`. -/
def MAX_QUADS : ℕ := 100000

/-- The mutable state of the `subdivide_nodes` loop: the `VecDeque` of pending
regions and the `quadtree_leaves` vector. -/
structure DState where
  queue : List Quad
  leaves : List Quad
deriving DecidableEq

open Classical in
/-- One iteration of the `while let Some(next_quad) = deque.pop_front()` loop
of `subdivide_nodes`.  `rootW`/`rootH` are `initial_quad.width`/
`initial_quad.height`, against which the skip test compares.  States in which
the loop has exited (empty deque, or the `MAX_QUADS` break) are fixed points. -/
noncomputable def dstep (img : Img) (cfg : QuadConfig) (rootW rootH : ℕ)
    (s : DState) : DState :=
  match s.queue with
  | [] => s
  | q :: rest =>
    if MAX_QUADS < s.leaves.length then s
    else if rootW ≤ q.x ∨ rootH ≤ q.y then ⟨rest, s.leaves⟩
    else if should_subdivide img q cfg then ⟨rest ++ q.subdivide, s.leaves⟩
    else ⟨rest, s.leaves ++ [{ q with color := calc_avg_color img q }]⟩

/-- Termination measure of one pending region: `5 ^ (max_depth + 1 - depth)`.
Expanding a region (possible only when `depth < max_depth`) replaces its
measure by at most `4 · 5 ^ (max_depth - depth)`, a strict decrease. -/
def quadMeasure (cfg : QuadConfig) (q : Quad) : ℕ :=
  5 ^ (cfg.max_depth + 1 - q.cur_depth)

/-- Termination measure of the whole deque. -/
def queueMeasure (cfg : QuadConfig) (l : List Quad) : ℕ :=
  (l.map (quadMeasure cfg)).sum

/-- `subdivide_nodes` from `quad.rs`: run the loop from the root (the loop
provably reaches a fixed point within `queueMeasure` steps, see
`dstep_halted_of_measure_le`) and return the accumulated leaf vector. -/
noncomputable def subdivide_nodes (img : Img) (cfg : QuadConfig)
    (initial_quad : Quad) : List Quad :=
  ((dstep img cfg initial_quad.width initial_quad.height)^[queueMeasure cfg [initial_quad]]
    ⟨[initial_quad], []⟩).leaves

open Classical in
/-- Number of leaves the (uncapped) loop emits for one pending region: the
recursive reading of the loop body.  Used to relate runs with different color
thresholds. -/
noncomputable def leafCountR (img : Img) (cfg : QuadConfig) (rootW rootH : ℕ)
    (q : Quad) : ℕ :=
  if rootW ≤ q.x ∨ rootH ≤ q.y then 0
  else if h : should_subdivide img q cfg then
    (q.subdivide.attach.map (fun c => leafCountR img cfg rootW rootH c.1)).sum
  else 1
termination_by cfg.max_depth + 1 - q.cur_depth
decreasing_by
  have hd : q.cur_depth < cfg.max_depth := h.1
  have hm := c.2
  simp only [Quad.subdivide, List.mem_cons, List.not_mem_nil, or_false] at hm
  rcases hm with h1 | h1 | h1 | h1 <;> simp [h1] <;> omega

/- Concrete inputs used by witnesses and counterexamples. -/

/-- A 10×10 image every pixel of which is pure red `(255, 0, 0, 255)`. -/
def imgRed : Img := ⟨10, 10, fun _ _ => ⟨255, 0, 0, 255⟩⟩

/-- Same 10×10 pure-red image with alpha 0 everywhere. -/
def imgRedA0 : Img := ⟨10, 10, fun _ _ => ⟨255, 0, 0, 0⟩⟩

/-- The whole-image root region of a 10×10 image. -/
def rootRed : Quad := Quad.new 0 0 10 10

/-- A 1×2 image: white pixel on top of a black pixel. -/
def imgBW : Img :=
  ⟨1, 2, fun _ py => if py = 0 then ⟨255, 255, 255, 255⟩ else ⟨0, 0, 0, 255⟩⟩

/-- Root region of `imgBW`. -/
def rootBW : Quad := Quad.new 0 0 1 2

/-- Config with `size_threshold = 0` and `color_threshold = 0.0` (both values
the spec admits: non-negative), default `max_depth`. -/
def cfgBW : QuadConfig := ⟨7, 0, 0, "output.png"⟩

/-- A 1×1 all-black image. -/
def imgUnit : Img := ⟨1, 1, fun _ _ => blackPix⟩

/-- The 1×1 root region of `imgUnit`. -/
def qUnit : Quad := Quad.new 0 0 1 1

/-- Config with `max_depth = 0`, so no region ever subdivides. -/
def cfgDepth0 : QuadConfig := ⟨0, 10, 5, "output.png"⟩

/-- Default configuration values of `QuadConfig::default`. -/
def cfgDefault : QuadConfig := ⟨7, 10, 5, "output.png"⟩

/-- A degenerate region of width 0 (only constructible by a caller; the claims
discuss how the statistics behave on it). -/
def qZeroW : Quad := ⟨0, 0, 0, 5, blackPix, 0⟩

/- ------------------------------------------------------------------ -/
/- Helper lemmas                                                      -/
/- ------------------------------------------------------------------ -/

theorem subdivide_mem_depth {q c : Quad} (hc : c ∈ q.subdivide) :
    c.cur_depth = q.cur_depth + 1 := by
  simp only [Quad.subdivide, List.mem_cons, List.not_mem_nil, or_false] at hc
  rcases hc with rfl | rfl | rfl | rfl <;> rfl

theorem subdivide_head_mem (q : Quad) :
    (⟨q.x, q.y, (q.width + 1) / 2, (q.height + 1) / 2, blackPix, q.cur_depth + 1⟩ : Quad)
      ∈ q.subdivide := by
  simp [Quad.subdivide]

/-- Exhaustive case analysis of one loop iteration. -/
theorem dstep_cases (img : Img) (cfg : QuadConfig) (rW rH : ℕ) (s : DState) :
    (s.queue = [] ∧ dstep img cfg rW rH s = s)
    ∨ (∃ q rest, s.queue = q :: rest ∧ MAX_QUADS < s.leaves.length
        ∧ dstep img cfg rW rH s = s)
    ∨ (∃ q rest, s.queue = q :: rest ∧ s.leaves.length ≤ MAX_QUADS
        ∧ (rW ≤ q.x ∨ rH ≤ q.y)
        ∧ dstep img cfg rW rH s = ⟨rest, s.leaves⟩)
    ∨ (∃ q rest, s.queue = q :: rest ∧ s.leaves.length ≤ MAX_QUADS
        ∧ ¬(rW ≤ q.x ∨ rH ≤ q.y) ∧ should_subdivide img q cfg
        ∧ dstep img cfg rW rH s = ⟨rest ++ q.subdivide, s.leaves⟩)
    ∨ (∃ q rest, s.queue = q :: rest ∧ s.leaves.length ≤ MAX_QUADS
        ∧ ¬(rW ≤ q.x ∨ rH ≤ q.y) ∧ ¬ should_subdivide img q cfg
        ∧ dstep img cfg rW rH s
            = ⟨rest, s.leaves ++ [{ q with color := calc_avg_color img q }]⟩) := by
  obtain ⟨qu, lv⟩ := s
  cases qu with
  | nil => exact Or.inl ⟨rfl, rfl⟩
  | cons q rest =>
    by_cases hcap : MAX_QUADS < lv.length
    · refine Or.inr (Or.inl ⟨q, rest, rfl, hcap, ?_⟩)
      simp only [dstep]
      rw [if_pos hcap]
    · by_cases hskip : rW ≤ q.x ∨ rH ≤ q.y
      · refine Or.inr (Or.inr (Or.inl ⟨q, rest, rfl, le_of_not_lt hcap, hskip, ?_⟩))
        simp only [dstep]
        rw [if_neg hcap, if_pos hskip]
      · by_cases hsub : should_subdivide img q cfg
        · refine Or.inr (Or.inr (Or.inr (Or.inl
            ⟨q, rest, rfl, le_of_not_lt hcap, hskip, hsub, ?_⟩)))
          simp only [dstep]
          rw [if_neg hcap, if_neg hskip, if_pos hsub]
        · refine Or.inr (Or.inr (Or.inr (Or.inr
            ⟨q, rest, rfl, le_of_not_lt hcap, hskip, hsub, ?_⟩)))
          simp only [dstep]
          rw [if_neg hcap, if_neg hskip, if_neg hsub]

/-- Invariants preserved by one step are preserved by any number of steps. -/
theorem iterate_inv {α : Type} (f : α → α) (P : α → Prop)
    (hP : ∀ s, P s → P (f s)) : ∀ n s, P s → P (f^[n] s) := by
  intro n
  induction n with
  | zero => intro s hs; simpa using hs
  | succ n ih =>
    intro s hs
    rw [Function.iterate_succ_apply]
    exact ih _ (hP _ hs)

/- ------------------------------------------------------------------ -/
/- C1                                                                 -/
/- ------------------------------------------------------------------ -/

/-- C1: `should_subdivide(region, config)` is true exactly when all three
conditions hold — depth below `max_depth`, non-uniformity above
`color_threshold`, and both dimensions above `size_threshold` — and the
failure of any single condition rules subdivision out. -/
theorem should_subdivide_characterization (img : Img) (q : Quad) (cfg : QuadConfig) :
    (should_subdivide img q cfg ↔
      q.cur_depth < cfg.max_depth
        ∧ calc_color_distance img q > cfg.color_threshold
        ∧ (q.width > cfg.size_threshold ∧ q.height > cfg.size_threshold))
    ∧ (¬ q.cur_depth < cfg.max_depth → ¬ should_subdivide img q cfg)
    ∧ (¬ calc_color_distance img q > cfg.color_threshold → ¬ should_subdivide img q cfg)
    ∧ (¬ (q.width > cfg.size_threshold ∧ q.height > cfg.size_threshold) →
        ¬ should_subdivide img q cfg) := by
  unfold should_subdivide
  tauto

/-- Witness for C1: at `max_depth = 0` the depth condition fails on the root
of the 1×1 image, so it is not subdivided. -/
theorem should_subdivide_characterization_witness :
    ¬ should_subdivide imgUnit qUnit cfgDepth0 :=
  (should_subdivide_characterization imgUnit qUnit cfgDepth0).2.1 (by decide)

/- ------------------------------------------------------------------ -/
/- C2                                                                 -/
/- ------------------------------------------------------------------ -/

/-- C2: for a region with positive width and height, `subdivide` returns four
children at depth `parent + 1` whose widths/heights follow the
ceiling-division rule (`new_w = ⌈w/2⌉ = (w+1)/2`, trailing child getting the
floor `w - new_w = ⌊w/2⌋`) and whose rectangles tile the parent exactly:
every pixel of the parent lies in one child, and in only one. -/
theorem subdivide_exact_tiling (q : Quad) (px py : ℕ)
    (hw : 0 < q.width) (hh : 0 < q.height) :
    (q.contains px py ↔ ∃ c ∈ q.subdivide, c.contains px py)
    ∧ (∀ c ∈ q.subdivide, ∀ d ∈ q.subdivide,
        c.contains px py → d.contains px py → c = d)
    ∧ (∀ c ∈ q.subdivide, c.cur_depth = q.cur_depth + 1)
    ∧ q.subdivide.map Quad.width
        = [(q.width + 1) / 2, q.width - (q.width + 1) / 2,
           (q.width + 1) / 2, q.width - (q.width + 1) / 2]
    ∧ q.subdivide.map Quad.height
        = [(q.height + 1) / 2, (q.height + 1) / 2,
           q.height - (q.height + 1) / 2, q.height - (q.height + 1) / 2]
    ∧ q.width - (q.width + 1) / 2 = q.width / 2
    ∧ q.height - (q.height + 1) / 2 = q.height / 2 := by
  refine ⟨?_, ?_, fun c hc => subdivide_mem_depth hc, rfl, rfl, by omega, by omega⟩
  · simp only [Quad.subdivide, Quad.contains, List.mem_cons, List.not_mem_nil,
      or_false, exists_eq_or_imp, exists_eq_left]
    omega
  · intro c hc d hd hcp hdp
    simp only [Quad.subdivide, List.mem_cons, List.not_mem_nil, or_false] at hc hd
    rcases hc with rfl | rfl | rfl | rfl <;> rcases hd with rfl | rfl | rfl | rfl <;>
      first
        | rfl
        | (exfalso; revert hcp hdp; simp only [Quad.contains]; omega)

/-- Witness for C2: splitting the 5×3 region at the origin, the pixel (4, 2)
lands in exactly one child. -/
theorem subdivide_exact_tiling_witness :
    ∃ c ∈ (Quad.new 0 0 5 3).subdivide, c.contains 4 2 :=
  ((subdivide_exact_tiling (Quad.new 0 0 5 3) 4 2 (by decide) (by decide)).1).mp
    (by decide)

/- ------------------------------------------------------------------ -/
/- C8                                                                 -/
/- ------------------------------------------------------------------ -/

/-- C8: both statistics are total on zero-pixel regions — with
`pixel_count = 0` after clamping, `calc_avg_color` returns the black sentinel
and `calc_color_distance` returns 0 (the division is guarded by the
`pixel_count == 0` branch in both functions). -/
theorem stats_total_on_empty (img : Img) (q : Quad)
    (h : pixelCount img q = 0) :
    calc_avg_color img q = ⟨0, 0, 0, 255⟩ ∧ calc_color_distance img q = 0 := by
  unfold calc_avg_color calc_color_distance
  simp [h]

/-- Witness for C8: a width-0 region clamps to zero pixels. -/
theorem stats_total_on_empty_witness :
    calc_avg_color imgUnit qZeroW = ⟨0, 0, 0, 255⟩
      ∧ calc_color_distance imgUnit qZeroW = 0 :=
  stats_total_on_empty imgUnit qZeroW (by decide)

/- ------------------------------------------------------------------ -/
/- Step-equation and fixed-point lemmas for the driver loop           -/
/- ------------------------------------------------------------------ -/

theorem dstep_nil (img : Img) (cfg : QuadConfig) (rW rH : ℕ) (s : DState)
    (h : s.queue = []) : dstep img cfg rW rH s = s := by
  obtain ⟨qu, lv⟩ := s
  simp only at h
  subst h
  simp only [dstep]

theorem dstep_cap (img : Img) (cfg : QuadConfig) (rW rH : ℕ) (q : Quad)
    (rest leaves : List Quad) (hcap : MAX_QUADS < leaves.length) :
    dstep img cfg rW rH ⟨q :: rest, leaves⟩ = ⟨q :: rest, leaves⟩ := by
  simp only [dstep]
  rw [if_pos hcap]

theorem dstep_skip (img : Img) (cfg : QuadConfig) (rW rH : ℕ) (q : Quad)
    (rest leaves : List Quad) (hcap : leaves.length ≤ MAX_QUADS)
    (hskip : rW ≤ q.x ∨ rH ≤ q.y) :
    dstep img cfg rW rH ⟨q :: rest, leaves⟩ = ⟨rest, leaves⟩ := by
  simp only [dstep]
  rw [if_neg (not_lt.mpr hcap), if_pos hskip]

theorem dstep_sub (img : Img) (cfg : QuadConfig) (rW rH : ℕ) (q : Quad)
    (rest leaves : List Quad) (hcap : leaves.length ≤ MAX_QUADS)
    (hskip : ¬(rW ≤ q.x ∨ rH ≤ q.y)) (hsub : should_subdivide img q cfg) :
    dstep img cfg rW rH ⟨q :: rest, leaves⟩ = ⟨rest ++ q.subdivide, leaves⟩ := by
  simp only [dstep]
  rw [if_neg (not_lt.mpr hcap), if_neg hskip, if_pos hsub]

theorem dstep_leaf (img : Img) (cfg : QuadConfig) (rW rH : ℕ) (q : Quad)
    (rest leaves : List Quad) (hcap : leaves.length ≤ MAX_QUADS)
    (hskip : ¬(rW ≤ q.x ∨ rH ≤ q.y)) (hsub : ¬ should_subdivide img q cfg) :
    dstep img cfg rW rH ⟨q :: rest, leaves⟩
      = ⟨rest, leaves ++ [{ q with color := calc_avg_color img q }]⟩ := by
  simp only [dstep]
  rw [if_neg (not_lt.mpr hcap), if_neg hskip, if_neg hsub]

theorem quadMeasure_pos (cfg : QuadConfig) (q : Quad) : 0 < quadMeasure cfg q :=
  pow_pos (by norm_num) _

theorem queueMeasure_subdivide (cfg : QuadConfig) (q : Quad)
    (hd : q.cur_depth < cfg.max_depth) :
    queueMeasure cfg q.subdivide < quadMeasure cfg q := by
  have h1 : cfg.max_depth + 1 - q.cur_depth = (cfg.max_depth - q.cur_depth) + 1 := by
    omega
  have h2 : cfg.max_depth + 1 - (q.cur_depth + 1) = cfg.max_depth - q.cur_depth := by
    omega
  have hk : 0 < 5 ^ (cfg.max_depth - q.cur_depth) := pow_pos (by norm_num) _
  simp only [queueMeasure, Quad.subdivide, quadMeasure, List.map_cons, List.map_nil,
    List.sum_cons, List.sum_nil, h1, h2, pow_succ]
  omega

/-- Every non-fixed-point state strictly decreases the deque measure. -/
theorem dstep_measure_decrease (img : Img) (cfg : QuadConfig) (rW rH : ℕ)
    (s : DState) (hne : dstep img cfg rW rH s ≠ s) :
    queueMeasure cfg (dstep img cfg rW rH s).queue < queueMeasure cfg s.queue := by
  rcases dstep_cases img cfg rW rH s with
    ⟨_, he⟩ | ⟨q, rest, _, _, he⟩ | ⟨q, rest, hq, _, _, he⟩ |
    ⟨q, rest, hq, _, _, hsub, he⟩ | ⟨q, rest, hq, _, _, _, he⟩
  · exact absurd he hne
  · exact absurd he hne
  · rw [he, hq]
    have := quadMeasure_pos cfg q
    simp only [queueMeasure, List.map_cons, List.sum_cons]
    omega
  · rw [he, hq]
    have hlt := queueMeasure_subdivide cfg q hsub.1
    simp only [queueMeasure, List.map_cons, List.sum_cons, List.map_append,
      List.sum_append] at hlt ⊢
    omega
  · rw [he, hq]
    have := quadMeasure_pos cfg q
    simp only [queueMeasure, List.map_cons, List.sum_cons]
    omega

/-- Fixed points of `dstep` are exactly the loop-exit configurations. -/
theorem dstep_fixed_iff (img : Img) (cfg : QuadConfig) (rW rH : ℕ) (s : DState) :
    dstep img cfg rW rH s = s ↔ s.queue = [] ∨ MAX_QUADS < s.leaves.length := by
  constructor
  · intro hfix
    rcases dstep_cases img cfg rW rH s with
      ⟨hq, _⟩ | ⟨q, rest, hq, hcap, _⟩ | ⟨q, rest, hq, _, _, he⟩ |
      ⟨q, rest, hq, _, _, _, he⟩ | ⟨q, rest, hq, _, _, _, he⟩
    · exact Or.inl hq
    · exact Or.inr hcap
    · exfalso
      have := congrArg (fun t => t.queue.length) (he.symm.trans hfix)
      simp [hq] at this
    · exfalso
      have := congrArg (fun t => t.queue.length) (he.symm.trans hfix)
      simp [hq, Quad.subdivide] at this
    · exfalso
      have := congrArg (fun t => t.queue.length) (he.symm.trans hfix)
      simp [hq] at this
  · intro h
    rcases h with h | h
    · exact dstep_nil img cfg rW rH s h
    · obtain ⟨qu, lv⟩ := s
      cases qu with
      | nil => exact dstep_nil img cfg rW rH _ rfl
      | cons q rest => exact dstep_cap img cfg rW rH q rest lv h

/-- Within `queueMeasure` steps the loop reaches a fixed point. -/
theorem dstep_halted_of_measure_le (img : Img) (cfg : QuadConfig) (rW rH : ℕ) :
    ∀ n s, queueMeasure cfg s.queue ≤ n →
      dstep img cfg rW rH ((dstep img cfg rW rH)^[n] s)
        = (dstep img cfg rW rH)^[n] s := by
  intro n
  induction n with
  | zero =>
    intro s hs
    have hq : s.queue = [] := by
      cases hqu : s.queue with
      | nil => rfl
      | cons q rest =>
        exfalso
        have := quadMeasure_pos cfg q
        rw [hqu] at hs
        simp only [queueMeasure, List.map_cons, List.sum_cons] at hs
        omega
    simpa using dstep_nil img cfg rW rH s hq
  | succ n ih =>
    intro s hs
    by_cases hfix : dstep img cfg rW rH s = s
    · rw [Function.iterate_fixed hfix]
      exact hfix
    · have hdec := dstep_measure_decrease img cfg rW rH s hfix
      rw [Function.iterate_succ_apply]
      exact ih _ (by omega)

/- ------------------------------------------------------------------ -/
/- C9                                                                 -/
/- ------------------------------------------------------------------ -/

/-- C9: the work-queue loop terminates on every image and configuration —
after at most `queueMeasure` steps (the measure shrinks strictly at every
expansion because children are strictly deeper and expandable depth is
bounded by `max_depth`) the state is a fixed point, further iteration
changes nothing, and the loop has exited (deque exhausted or cap reached),
leaving a finite leaf list. -/
theorem driver_terminates (img : Img) (cfg : QuadConfig) (rW rH : ℕ)
    (s : DState) (n : ℕ) (h : queueMeasure cfg s.queue ≤ n) :
    (∀ m, n ≤ m →
      (dstep img cfg rW rH)^[m] s = (dstep img cfg rW rH)^[n] s)
    ∧ (((dstep img cfg rW rH)^[n] s).queue = []
      ∨ MAX_QUADS < ((dstep img cfg rW rH)^[n] s).leaves.length) := by
  have hfix := dstep_halted_of_measure_le img cfg rW rH n s h
  have hstable : ∀ m, n ≤ m →
      (dstep img cfg rW rH)^[m] s = (dstep img cfg rW rH)^[n] s := by
    intro m hm
    obtain ⟨k, rfl⟩ := Nat.exists_eq_add_of_le hm
    rw [Nat.add_comm, Function.iterate_add_apply, Function.iterate_fixed hfix]
  exact ⟨hstable, (dstep_fixed_iff img cfg rW rH _).mp hfix⟩

/-- Witness for C9: on the empty state the loop is immediately stable. -/
theorem driver_terminates_witness :
    (dstep imgUnit cfgDepth0 1 1)^[5] ⟨[], []⟩
      = (dstep imgUnit cfgDepth0 1 1)^[0] ⟨[], []⟩ :=
  (driver_terminates imgUnit cfgDepth0 1 1 ⟨[], []⟩ 0 (by decide)).1 5 (by omega)

/- ------------------------------------------------------------------ -/
/- C5                                                                 -/
/- ------------------------------------------------------------------ -/

theorem dstep_preserves_depth_bound (img : Img) (cfg : QuadConfig) (rW rH : ℕ)
    (s : DState)
    (h : (∀ q ∈ s.queue, q.cur_depth ≤ cfg.max_depth)
      ∧ ∀ l ∈ s.leaves, l.cur_depth ≤ cfg.max_depth) :
    (∀ q ∈ (dstep img cfg rW rH s).queue, q.cur_depth ≤ cfg.max_depth)
      ∧ ∀ l ∈ (dstep img cfg rW rH s).leaves, l.cur_depth ≤ cfg.max_depth := by
  rcases dstep_cases img cfg rW rH s with
    ⟨_, he⟩ | ⟨q, rest, _, _, he⟩ | ⟨q, rest, hq, _, _, he⟩ |
    ⟨q, rest, hq, _, _, hsub, he⟩ | ⟨q, rest, hq, _, _, _, he⟩
  · rw [he]; exact h
  · rw [he]; exact h
  · rw [he]
    rw [hq] at h
    exact ⟨fun p hp => h.1 p (List.mem_cons_of_mem q hp), h.2⟩
  · rw [he]
    rw [hq] at h
    refine ⟨fun p hp => ?_, h.2⟩
    rcases List.mem_append.mp hp with hp | hp
    · exact h.1 p (List.mem_cons_of_mem q hp)
    · rw [subdivide_mem_depth hp]
      have : q.cur_depth < cfg.max_depth := hsub.1
      omega
  · rw [he]
    rw [hq] at h
    refine ⟨fun p hp => h.1 p (List.mem_cons_of_mem q hp), fun l hl => ?_⟩
    rcases List.mem_append.mp hl with hl | hl
    · exact h.2 l hl
    · rw [List.mem_singleton.mp hl]
      exact h.1 q (List.mem_cons_self q _)

/-- C5: each child produced by `subdivide` is exactly one level deeper than
its parent, and in a run started at a depth-0 root no region emitted into the
leaf set is deeper than `max_depth`. -/
theorem depth_increments_and_leaf_depth_bound (img : Img) (cfg : QuadConfig)
    (root : Quad) (h0 : root.cur_depth = 0) :
    (∀ q : Quad, ∀ c ∈ q.subdivide, c.cur_depth = q.cur_depth + 1)
    ∧ ∀ l ∈ subdivide_nodes img cfg root, l.cur_depth ≤ cfg.max_depth := by
  refine ⟨fun q c hc => subdivide_mem_depth hc, ?_⟩
  have hinv := iterate_inv (dstep img cfg root.width root.height)
    (fun s => (∀ q ∈ s.queue, q.cur_depth ≤ cfg.max_depth)
      ∧ ∀ l ∈ s.leaves, l.cur_depth ≤ cfg.max_depth)
    (fun s hs => dstep_preserves_depth_bound img cfg root.width root.height s hs)
    (queueMeasure cfg [root]) ⟨[root], []⟩
    ⟨fun q hq => by rw [List.mem_singleton.mp hq, h0]; omega, by simp⟩
  exact hinv.2

/-- The `max_depth = 0` run on the 1×1 black image: the root is immediately
the single (black) leaf. -/
theorem unitRun :
    subdivide_nodes imgUnit cfgDepth0 qUnit
      = [{ qUnit with color := ⟨0, 0, 0, 255⟩ }] := by
  unfold subdivide_nodes
  have hstep : dstep imgUnit cfgDepth0 qUnit.width qUnit.height ⟨[qUnit], []⟩
      = ⟨[], [{ qUnit with color := ⟨0, 0, 0, 255⟩ }]⟩ := by
    rw [dstep_leaf imgUnit cfgDepth0 qUnit.width qUnit.height qUnit [] []
      (by decide) (by decide) (fun h => absurd h.1 (by decide))]
    have havg : calc_avg_color imgUnit qUnit = ⟨0, 0, 0, 255⟩ := by decide
    rw [havg]
    rfl
  obtain ⟨k, hk⟩ : ∃ k, queueMeasure cfgDepth0 [qUnit] = k + 1 := ⟨4, by decide⟩
  rw [hk, Function.iterate_succ_apply, hstep,
    Function.iterate_fixed (dstep_nil _ _ _ _ _ rfl)]

/-- Witness for C5: the single leaf of the `max_depth = 0` run on the 1×1
image respects the depth bound. -/
theorem depth_increments_witness :
    ({ qUnit with color := ⟨0, 0, 0, 255⟩ } : Quad).cur_depth
      ≤ cfgDepth0.max_depth :=
  (depth_increments_and_leaf_depth_bound imgUnit cfgDepth0 qUnit rfl).2
    { qUnit with color := ⟨0, 0, 0, 255⟩ } (by rw [unitRun]; exact List.mem_singleton.mpr rfl)

/- ------------------------------------------------------------------ -/
/- C4                                                                 -/
/- ------------------------------------------------------------------ -/

theorem avgBW : calc_avg_color imgBW rootBW = ⟨127, 127, 127, 255⟩ := by
  decide

theorem distBW_pos : 0 < calc_color_distance imgBW rootBW := by
  unfold calc_color_distance
  rw [if_neg (by decide)]
  have hpc : pixelCount imgBW rootBW = 2 := by decide
  rw [hpc, avgBW]
  apply div_pos ?_ (by norm_num)
  apply Finset.sum_pos ?_ ⟨0, by decide⟩
  intro px hpx
  apply Finset.sum_pos ?_ ⟨0, by decide⟩
  intro py hpy
  have hpx0 : px = 0 := by
    simp only [Finset.mem_Ico] at hpx
    have : endX imgBW rootBW = 1 := by decide
    omega
  have hpy01 : py = 0 ∨ py = 1 := by
    simp only [Finset.mem_Ico] at hpy
    have : endY imgBW rootBW = 2 := by decide
    omega
  subst hpx0
  rcases hpy01 with rfl | rfl
  · have : imgBW.pix 0 0 = ⟨255, 255, 255, 255⟩ := rfl
    rw [this]
    unfold pixEuclid
    apply Real.sqrt_pos.mpr
    norm_num
  · have : imgBW.pix 0 1 = ⟨0, 0, 0, 255⟩ := rfl
    rw [this]
    unfold pixEuclid
    apply Real.sqrt_pos.mpr
    norm_num

/-- Counterexample to C4: on the 1×2 white/black image with the (spec-legal)
configuration `color_threshold = 0`, `size_threshold = 0`, the root (width 1)
subdivides, and the driver pushes a width-0 top-right child into the work
queue after a single loop iteration. -/
theorem zero_width_region_enqueued :
    (⟨1, 0, 0, 1, blackPix, 1⟩ : Quad)
        ∈ ((dstep imgBW cfgBW rootBW.width rootBW.height)^[1] ⟨[rootBW], []⟩).queue
      ∧ (⟨1, 0, 0, 1, blackPix, 1⟩ : Quad).width = 0 := by
  refine ⟨?_, rfl⟩
  have hsub : should_subdivide imgBW rootBW cfgBW := by
    refine ⟨by decide, ?_, by decide, by decide⟩
    have := distBW_pos
    show cfgBW.color_threshold < calc_color_distance imgBW rootBW
    have h0 : cfgBW.color_threshold = 0 := rfl
    rw [h0]
    exact this
  rw [Function.iterate_one,
    dstep_sub imgBW cfgBW rootBW.width rootBW.height rootBW [] []
      (by decide) (by decide) hsub]
  decide

theorem dstep_preserves_dims_positive (img : Img) (cfg : QuadConfig)
    (rW rH : ℕ) (hst : 1 ≤ cfg.size_threshold) (s : DState)
    (h : ∀ q ∈ s.queue, 0 < q.width ∧ 0 < q.height) :
    ∀ q ∈ (dstep img cfg rW rH s).queue, 0 < q.width ∧ 0 < q.height := by
  rcases dstep_cases img cfg rW rH s with
    ⟨_, he⟩ | ⟨q, rest, _, _, he⟩ | ⟨q, rest, hq, _, _, he⟩ |
    ⟨q, rest, hq, _, _, hsub, he⟩ | ⟨q, rest, hq, _, _, _, he⟩
  · rw [he]; exact h
  · rw [he]; exact h
  · rw [he]
    rw [hq] at h
    exact fun p hp => h p (List.mem_cons_of_mem q hp)
  · rw [he]
    rw [hq] at h
    intro p hp
    rcases List.mem_append.mp hp with hp | hp
    · exact h p (List.mem_cons_of_mem q hp)
    · have hw : cfg.size_threshold < q.width := hsub.2.2.1
      have hh : cfg.size_threshold < q.height := hsub.2.2.2
      simp only [Quad.subdivide, List.mem_cons, List.not_mem_nil, or_false] at hp
      rcases hp with rfl | rfl | rfl | rfl <;> constructor <;> simp <;> omega
  · rw [he]
    rw [hq] at h
    exact fun p hp => h p (List.mem_cons_of_mem q hp)

/-- C4 amended: provided `size_threshold ≥ 1` (the default is 5) and the root
region has positive dimensions, every region ever placed in the work queue
has positive width and height.  (With `size_threshold = 0` the driver can
enqueue zero-dimension children of a one-pixel-wide region, see
`zero_width_region_enqueued`.) -/
theorem queue_dims_positive (img : Img) (cfg : QuadConfig) (root : Quad)
    (n : ℕ) (hst : 1 ≤ cfg.size_threshold) (hw : 0 < root.width)
    (hh : 0 < root.height) :
    ∀ q ∈ ((dstep img cfg root.width root.height)^[n] ⟨[root], []⟩).queue,
      0 < q.width ∧ 0 < q.height := by
  exact iterate_inv (dstep img cfg root.width root.height)
    (fun s => ∀ q ∈ s.queue, 0 < q.width ∧ 0 < q.height)
    (fun s hs => dstep_preserves_dims_positive img cfg root.width root.height hst s hs)
    n ⟨[root], []⟩
    (fun q hq => by rw [List.mem_singleton.mp hq]; exact ⟨hw, hh⟩)

/-- Witness for C4's amended statement: default config, 10×10 red image, the
root itself as the queued region after zero steps. -/
theorem queue_dims_positive_witness :
    0 < rootRed.width ∧ 0 < rootRed.height :=
  queue_dims_positive imgRed cfgDefault rootRed 0 (by decide) (by decide) (by decide)
    rootRed (List.mem_singleton.mpr rfl)

/- ------------------------------------------------------------------ -/
/- C10                                                                -/
/- ------------------------------------------------------------------ -/

theorem calc_avg_color_alpha (img : Img) (q : Quad) :
    (calc_avg_color img q).a = 255 := by
  unfold calc_avg_color
  split <;> rfl

theorem dstep_preserves_leaf_alpha (img : Img) (cfg : QuadConfig) (rW rH : ℕ)
    (s : DState) (h : ∀ l ∈ s.leaves, l.color.a = 255) :
    ∀ l ∈ (dstep img cfg rW rH s).leaves, l.color.a = 255 := by
  rcases dstep_cases img cfg rW rH s with
    ⟨_, he⟩ | ⟨q, rest, _, _, he⟩ | ⟨q, rest, hq, _, _, he⟩ |
    ⟨q, rest, hq, _, _, _, he⟩ | ⟨q, rest, hq, _, _, _, he⟩
  · rw [he]; exact h
  · rw [he]; exact h
  · rw [he]; exact h
  · rw [he]; exact h
  · rw [he]
    intro l hl
    rcases List.mem_append.mp hl with hl | hl
    · exact h l hl
    · rw [List.mem_singleton.mp hl]
      exact calc_avg_color_alpha img q

/-- C10: the average color always carries alpha 255; both statistics depend
only on the R, G, B channels of the source pixels (never on alpha); and every
leaf the driver emits carries a fully opaque color. -/
theorem alpha_opaque_and_ignored :
    (∀ img q, (calc_avg_color img q).a = 255)
    ∧ (∀ img img' : Img, ∀ q : Quad,
        img.width = img'.width → img.height = img'.height →
        (∀ x y, (img.pix x y).r = (img'.pix x y).r
          ∧ (img.pix x y).g = (img'.pix x y).g
          ∧ (img.pix x y).b = (img'.pix x y).b) →
        calc_avg_color img q = calc_avg_color img' q
          ∧ calc_color_distance img q = calc_color_distance img' q)
    ∧ (∀ img cfg root, ∀ l ∈ subdivide_nodes img cfg root, l.color.a = 255) := by
  refine ⟨calc_avg_color_alpha, ?_, ?_⟩
  · intro img img' q hw hh hpix
    have hex : endX img q = endX img' q := by unfold endX; rw [hw]
    have hey : endY img q = endY img' q := by unfold endY; rw [hh]
    have hpc : pixelCount img q = pixelCount img' q := by
      unfold pixelCount; rw [hex, hey]
    have hcr : chanSum img q Pix.r = chanSum img' q Pix.r := by
      unfold chanSum; rw [hex, hey]
      exact Finset.sum_congr rfl fun x _ =>
        Finset.sum_congr rfl fun y _ => (hpix x y).1
    have hcg : chanSum img q Pix.g = chanSum img' q Pix.g := by
      unfold chanSum; rw [hex, hey]
      exact Finset.sum_congr rfl fun x _ =>
        Finset.sum_congr rfl fun y _ => (hpix x y).2.1
    have hcb : chanSum img q Pix.b = chanSum img' q Pix.b := by
      unfold chanSum; rw [hex, hey]
      exact Finset.sum_congr rfl fun x _ =>
        Finset.sum_congr rfl fun y _ => (hpix x y).2.2
    have havg : calc_avg_color img q = calc_avg_color img' q := by
      unfold calc_avg_color; rw [hpc, hcr, hcg, hcb]
    refine ⟨havg, ?_⟩
    unfold calc_color_distance
    rw [hpc, hex, hey, havg]
    by_cases h0 : pixelCount img' q = 0
    · rw [if_pos h0, if_pos h0]
    · rw [if_neg h0, if_neg h0]
      congr 1
      refine Finset.sum_congr rfl fun x _ => Finset.sum_congr rfl fun y _ => ?_
      unfold pixEuclid
      rw [(hpix x y).1, (hpix x y).2.1, (hpix x y).2.2]
  · intro img cfg root
    exact iterate_inv (dstep img cfg root.width root.height)
      (fun s => ∀ l ∈ s.leaves, l.color.a = 255)
      (fun s hs => dstep_preserves_leaf_alpha img cfg root.width root.height s hs)
      (queueMeasure cfg [root]) ⟨[root], []⟩ (by simp)

/-- Witness for C10: zeroing the alpha channel of the red test image changes
neither statistic. -/
theorem alpha_opaque_and_ignored_witness :
    calc_avg_color imgRed rootRed = calc_avg_color imgRedA0 rootRed
      ∧ calc_color_distance imgRed rootRed = calc_color_distance imgRedA0 rootRed :=
  alpha_opaque_and_ignored.2.1 imgRed imgRedA0 rootRed rfl rfl
    (fun _ _ => ⟨rfl, rfl, rfl⟩)

/- ------------------------------------------------------------------ -/
/- C7                                                                 -/
/- ------------------------------------------------------------------ -/

theorem avgRed : calc_avg_color imgRed rootRed = ⟨255, 0, 0, 255⟩ := by
  decide

theorem distRed : calc_color_distance imgRed rootRed = 0 := by
  unfold calc_color_distance
  rw [if_neg (by decide), avgRed]
  have hz : ∀ px ∈ Finset.Ico rootRed.x (endX imgRed rootRed),
      (∑ py in Finset.Ico rootRed.y (endY imgRed rootRed),
        pixEuclid ⟨255, 0, 0, 255⟩ (imgRed.pix px py)) = 0 := by
    intro px _
    apply Finset.sum_eq_zero
    intro py _
    show pixEuclid ⟨255, 0, 0, 255⟩ ⟨255, 0, 0, 255⟩ = 0
    unfold pixEuclid
    norm_num
  rw [Finset.sum_eq_zero hz, zero_div]

theorem notSubRed (cfg : QuadConfig) (ht : 0 < cfg.color_threshold) :
    ¬ should_subdivide imgRed rootRed cfg := by
  intro h
  have hgt := h.2.1
  rw [distRed] at hgt
  linarith

/-- C7: on the 10×10 all-red image the whole-image average color is exactly
`(255, 0, 0)`, the non-uniformity is exactly 0, and with any positive
`color_threshold` the driver returns exactly one leaf — the root, never
subdivided, colored pure red. -/
theorem red_image_root_is_single_leaf (cfg : QuadConfig)
    (ht : 0 < cfg.color_threshold) :
    calc_avg_color imgRed rootRed = ⟨255, 0, 0, 255⟩
    ∧ calc_color_distance imgRed rootRed = 0
    ∧ subdivide_nodes imgRed cfg rootRed
        = [{ rootRed with color := ⟨255, 0, 0, 255⟩ }] := by
  refine ⟨avgRed, distRed, ?_⟩
  unfold subdivide_nodes
  have hstep : dstep imgRed cfg rootRed.width rootRed.height ⟨[rootRed], []⟩
      = ⟨[], [{ rootRed with color := ⟨255, 0, 0, 255⟩ }]⟩ := by
    rw [dstep_leaf imgRed cfg rootRed.width rootRed.height rootRed [] []
      (by decide) (by decide) (notSubRed cfg ht)]
    simp [avgRed]
  obtain ⟨k, hk⟩ : ∃ k, queueMeasure cfg [rootRed] = k + 1 := by
    have := quadMeasure_pos cfg rootRed
    refine ⟨queueMeasure cfg [rootRed] - 1, ?_⟩
    simp only [queueMeasure, List.map_cons, List.map_nil, List.sum_cons, List.sum_nil]
    omega
  rw [hk, Function.iterate_succ_apply, hstep,
    Function.iterate_fixed (dstep_nil _ _ _ _ _ rfl)]

/-- Witness for C7: the default configuration has threshold 10 > 0. -/
theorem red_image_root_is_single_leaf_witness :
    subdivide_nodes imgRed cfgDefault rootRed
      = [{ rootRed with color := ⟨255, 0, 0, 255⟩ }] :=
  (red_image_root_is_single_leaf cfgDefault (by norm_num [cfgDefault])).2.2

/- ------------------------------------------------------------------ -/
/- C3                                                                 -/
/- ------------------------------------------------------------------ -/

/-- C3 (exhibit of the off-by-one): from a loop state whose leaf vector
already holds exactly `MAX_QUADS` leaves, the driver still dequeues the next
region and emits another leaf, ending with `MAX_QUADS + 1` entries: the
source checks `quadtree_leaves.len() > MAX_QUADS` after dequeuing, so it
stops only once the cap has already been exceeded by one. -/
theorem cap_overshoot :
    (((dstep imgUnit cfgDepth0 1 1)^[2]
        ⟨[qUnit], List.replicate MAX_QUADS qUnit⟩).leaves).length
      = MAX_QUADS + 1 := by
  have h1 : dstep imgUnit cfgDepth0 1 1 ⟨[qUnit], List.replicate MAX_QUADS qUnit⟩
      = ⟨[], List.replicate MAX_QUADS qUnit
          ++ [{ qUnit with color := calc_avg_color imgUnit qUnit }]⟩ := by
    rw [dstep_leaf imgUnit cfgDepth0 1 1 qUnit [] (List.replicate MAX_QUADS qUnit)
      (by simp) (by decide) (fun h => absurd h.1 (by decide))]
  rw [show (2 : ℕ) = 1 + 1 from rfl, Function.iterate_succ_apply, h1,
    Function.iterate_one, dstep_nil _ _ _ _ _ rfl]
  rw [List.length_append, List.length_replicate, List.length_singleton]

/- ------------------------------------------------------------------ -/
/- C6                                                                 -/
/- ------------------------------------------------------------------ -/

theorem attach_map_sum {α : Type} (l : List α) (f : α → ℕ) :
    (l.attach.map fun c => f c.1).sum = (l.map f).sum := by
  rw [show (fun c : {x // x ∈ l} => f c.1) = f ∘ Subtype.val from rfl,
    ← List.map_map, List.attach_map_subtype_val]

theorem leafCountR_skip (img : Img) (cfg : QuadConfig) (rW rH : ℕ) (q : Quad)
    (h : rW ≤ q.x ∨ rH ≤ q.y) : leafCountR img cfg rW rH q = 0 := by
  rw [leafCountR]
  rw [if_pos h]

theorem leafCountR_sub (img : Img) (cfg : QuadConfig) (rW rH : ℕ) (q : Quad)
    (hskip : ¬(rW ≤ q.x ∨ rH ≤ q.y)) (hsub : should_subdivide img q cfg) :
    leafCountR img cfg rW rH q
      = (q.subdivide.map (leafCountR img cfg rW rH)).sum := by
  rw [leafCountR]
  rw [if_neg hskip, dif_pos hsub, attach_map_sum]

theorem leafCountR_leaf (img : Img) (cfg : QuadConfig) (rW rH : ℕ) (q : Quad)
    (hskip : ¬(rW ≤ q.x ∨ rH ≤ q.y)) (hsub : ¬ should_subdivide img q cfg) :
    leafCountR img cfg rW rH q = 1 := by
  rw [leafCountR]
  rw [if_neg hskip, dif_neg hsub]

/-- A pending region whose top-left corner is inside the root rectangle
yields at least one leaf: its top-left descendant chain is never skipped. -/
theorem leafCountR_pos (img : Img) (cfg : QuadConfig) (rW rH : ℕ) :
    ∀ k q, cfg.max_depth + 1 - q.cur_depth ≤ k → ¬(rW ≤ q.x ∨ rH ≤ q.y) →
      1 ≤ leafCountR img cfg rW rH q := by
  intro k
  induction k with
  | zero =>
    intro q hk hskip
    have hd : ¬ q.cur_depth < cfg.max_depth := by omega
    rw [leafCountR_leaf img cfg rW rH q hskip (fun hs => hd hs.1)]
  | succ k ih =>
    intro q hk hskip
    by_cases hsub : should_subdivide img q cfg
    · rw [leafCountR_sub img cfg rW rH q hskip hsub]
      have hc := subdivide_head_mem q
      have hcd : (⟨q.x, q.y, (q.width + 1) / 2, (q.height + 1) / 2, blackPix,
          q.cur_depth + 1⟩ : Quad).cur_depth = q.cur_depth + 1 := rfl
      have h1 := ih ⟨q.x, q.y, (q.width + 1) / 2, (q.height + 1) / 2, blackPix,
          q.cur_depth + 1⟩ (by have := hsub.1; rw [hcd]; omega) hskip
      exact le_trans h1 (List.le_sum_of_mem (List.mem_map_of_mem _ hc))
    · rw [leafCountR_leaf img cfg rW rH q hskip hsub]

/-- Lowering the color threshold (same `max_depth`, same `size_threshold`)
never lowers the uncapped leaf count of any pending region. -/
theorem leafCountR_mono (img : Img) (cl ch : QuadConfig) (rW rH : ℕ)
    (hmd : cl.max_depth = ch.max_depth) (hst : cl.size_threshold = ch.size_threshold)
    (ht : cl.color_threshold ≤ ch.color_threshold) :
    ∀ k q, cl.max_depth + 1 - q.cur_depth ≤ k →
      leafCountR img ch rW rH q ≤ leafCountR img cl rW rH q := by
  intro k
  induction k with
  | zero =>
    intro q hk
    by_cases hskip : rW ≤ q.x ∨ rH ≤ q.y
    · rw [leafCountR_skip img ch rW rH q hskip, leafCountR_skip img cl rW rH q hskip]
    · have hd : ¬ q.cur_depth < cl.max_depth := by omega
      rw [leafCountR_leaf img ch rW rH q hskip (fun hs => hd (hmd ▸ hs.1)),
        leafCountR_leaf img cl rW rH q hskip (fun hs => hd hs.1)]
  | succ k ih =>
    intro q hk
    by_cases hskip : rW ≤ q.x ∨ rH ≤ q.y
    · rw [leafCountR_skip img ch rW rH q hskip, leafCountR_skip img cl rW rH q hskip]
    · by_cases hsubh : should_subdivide img q ch
      · have hsubl : should_subdivide img q cl :=
          ⟨hmd ▸ hsubh.1, lt_of_le_of_lt ht hsubh.2.1,
           hst ▸ hsubh.2.2.1, hst ▸ hsubh.2.2.2⟩
        rw [leafCountR_sub img ch rW rH q hskip hsubh,
          leafCountR_sub img cl rW rH q hskip hsubl]
        apply List.sum_le_sum
        intro c hc
        apply ih c
        have hcd := subdivide_mem_depth hc
        have hd := hsubl.1
        omega
      · rw [leafCountR_leaf img ch rW rH q hskip hsubh]
        exact leafCountR_pos img cl rW rH (cl.max_depth + 1 - q.cur_depth) q
          le_rfl hskip

/-- The length of the final leaf vector equals the uncapped leaf count of the
pending deque, truncated at `MAX_QUADS + 1` (the point at which the cap check
actually fires). -/
theorem run_length (img : Img) (cfg : QuadConfig) (rW rH : ℕ) :
    ∀ n s, queueMeasure cfg s.queue ≤ n → s.leaves.length ≤ MAX_QUADS + 1 →
      ((dstep img cfg rW rH)^[n] s).leaves.length
        = min (s.leaves.length + (s.queue.map (leafCountR img cfg rW rH)).sum)
            (MAX_QUADS + 1) := by
  intro n
  induction n with
  | zero =>
    intro s hm hl
    have hq : s.queue = [] := by
      cases hqu : s.queue with
      | nil => rfl
      | cons q rest =>
        exfalso
        have := quadMeasure_pos cfg q
        rw [hqu] at hm
        simp only [queueMeasure, List.map_cons, List.sum_cons] at hm
        omega
    rw [Function.iterate_zero_apply, hq]
    simp only [List.map_nil, List.sum_nil]
    omega
  | succ n ih =>
    intro s hm hl
    rcases dstep_cases img cfg rW rH s with
      ⟨hq, he⟩ | ⟨q, rest, hq, hcap, he⟩ | ⟨q, rest, hq, hcap, hskip, he⟩ |
      ⟨q, rest, hq, hcap, hskip, hsub, he⟩ | ⟨q, rest, hq, hcap, hskip, hsub, he⟩
    · rw [Function.iterate_fixed he, hq]
      simp only [List.map_nil, List.sum_nil]
      omega
    · rw [Function.iterate_fixed he, hq]
      simp only [List.map_cons, List.sum_cons]
      omega
    · rw [hq] at hm
      simp only [queueMeasure, List.map_cons, List.sum_cons] at hm
      have hmq := quadMeasure_pos cfg q
      rw [Function.iterate_succ_apply, he]
      have := ih ⟨rest, s.leaves⟩
        (by simp only [queueMeasure]; omega) hl
      rw [this, hq]
      simp only [List.map_cons, List.sum_cons,
        leafCountR_skip img cfg rW rH q hskip]
      omega
    · rw [hq] at hm
      simp only [queueMeasure, List.map_cons, List.sum_cons] at hm
      have hdec := queueMeasure_subdivide cfg q hsub.1
      rw [Function.iterate_succ_apply, he]
      have hmeas : queueMeasure cfg (rest ++ q.subdivide) ≤ n := by
        simp only [queueMeasure, List.map_append, List.sum_append] at hdec ⊢
        omega
      have := ih ⟨rest ++ q.subdivide, s.leaves⟩ hmeas hl
      rw [this, hq]
      simp only [List.map_cons, List.sum_cons, List.map_append, List.sum_append,
        leafCountR_sub img cfg rW rH q hskip hsub]
      omega
    · rw [hq] at hm
      simp only [queueMeasure, List.map_cons, List.sum_cons] at hm
      have hmq := quadMeasure_pos cfg q
      rw [Function.iterate_succ_apply, he]
      have hlen : (s.leaves ++ [{ q with color := calc_avg_color img q }]).length
          ≤ MAX_QUADS + 1 := by
        rw [List.length_append, List.length_singleton]
        omega
      have := ih ⟨rest, s.leaves ++ [{ q with color := calc_avg_color img q }]⟩
        (by simp only [queueMeasure]; omega) hlen
      rw [this, hq]
      simp only [List.map_cons, List.sum_cons, List.length_append,
        List.length_singleton, leafCountR_leaf img cfg rW rH q hskip hsub]
      omega

/-- C6: with the image, `max_depth` and `size_threshold` fixed, lowering
`color_threshold` never lowers the number of leaves the driver returns. -/
theorem leaf_count_monotone_in_threshold (img : Img) (cl ch : QuadConfig)
    (root : Quad) (hmd : cl.max_depth = ch.max_depth)
    (hst : cl.size_threshold = ch.size_threshold)
    (ht : cl.color_threshold ≤ ch.color_threshold) :
    (subdivide_nodes img ch root).length ≤ (subdivide_nodes img cl root).length := by
  unfold subdivide_nodes
  rw [run_length img ch root.width root.height (queueMeasure ch [root])
      ⟨[root], []⟩ (le_of_eq rfl) (by simp),
    run_length img cl root.width root.height (queueMeasure cl [root])
      ⟨[root], []⟩ (le_of_eq rfl) (by simp)]
  have hmono := leafCountR_mono img cl ch root.width root.height hmd hst ht
    (cl.max_depth + 1 - root.cur_depth) root le_rfl
  simp only [List.map_cons, List.map_nil, List.sum_cons, List.sum_nil,
    List.length_nil]
  omega

/-- Witness for C6: two `max_depth = 0` runs with thresholds 1 ≤ 2 on the
1×1 image. -/
theorem leaf_count_monotone_witness :
    (subdivide_nodes imgUnit ⟨0, 2, 5, "output.png"⟩ qUnit).length
      ≤ (subdivide_nodes imgUnit ⟨0, 1, 5, "output.png"⟩ qUnit).length :=
  leaf_count_monotone_in_threshold imgUnit ⟨0, 1, 5, "output.png"⟩
    ⟨0, 2, 5, "output.png"⟩ qUnit rfl rfl (by norm_num)
